import Mathlib

/-!
Verification of the `perceptualhash` Go package.

Shallow embedding of the `perceptualhash` package (perceptual image
hashing: preprocessing, 2-D DCT, bit extraction, hash formatting, and
hash comparison) together with theorems checking the repository's
specification against the code.

Go `string` values are byte sequences; we model them as `List Nat`
(one entry per byte) wherever the Go code indexes strings byte-wise.
Go `float64` arithmetic is modelled over an arbitrary linear ordered
field `K` (instantiated at `ℝ` for the analytic statements and at `ℚ`
for executable checks); `math.Cos` and `1/math.Sqrt2` are parameters,
the cosine being represented by a function `cosF : ℚ → K` where the
rational argument `q` stands for the angle `q·π`.
-/

namespace PerceptualHash

/-! ## Comparator (`CompareHashes`, src/unnamed/part_002 lines 78–91)

```go
func CompareHashes(hash1, hash2 string) (int, error) {
    if len(hash1) != len(hash2) {
        return 0, fmt.Errorf("hashes must be of the same length")
    }
    distance := 0
    for i := 0; i < len(hash1); i++ {
        if hash1[i] != hash2[i] {
            distance++
        }
    }
    return distance, nil
}
```
-/

/-- The loop of `CompareHashes`: count positions where the two byte
sequences differ, walking both in lock step. -/
def countDiff : List Nat → List Nat → Nat
  | a :: as, b :: bs => (if a ≠ b then 1 else 0) + countDiff as bs
  | _, _ => 0

/-- Model of `CompareHashes` from `src/unnamed/part_002`: error when the byte
lengths differ, otherwise the count of byte positions where the two
strings differ. -/
def CompareHashes (hash1 hash2 : List Nat) : Except String Nat :=
  if hash1.length ≠ hash2.length then
    Except.error "hashes must be of the same length"
  else
    Except.ok (countDiff hash1 hash2)

/-- Numeric value of an ASCII hex-digit byte (`'0'..'9'`, `'a'..'f'`). -/
def hexCharVal (b : Nat) : Nat :=
  if 48 ≤ b ∧ b ≤ 57 then b - 48
  else if 97 ≤ b ∧ b ≤ 102 then b - 87
  else 0

/-- Modelled from the spec: bit-level Hamming distance between two hex
strings — for each hex-character position, the number of positions
among the 4 underlying bits where the two hex digits disagree, summed
over all positions.  (This is the comparison semantic the spec mandates;
no function in the repository implements it, so it is defined here from
the spec's words for comparison with `CompareHashes`.) -/
def specBitHamming : List Nat → List Nat → Nat
  | a :: as, b :: bs =>
      (List.range 4).countP
        (fun j => (hexCharVal a).testBit j ≠ (hexCharVal b).testBit j)
        + specBitHamming as bs
  | _, _ => 0

/-- ASCII bytes of the string `"0000000000000000"`. -/
def zeros16 : List Nat := List.replicate 16 48

/-- ASCII bytes of the string `"0000000000000003"`. -/
def almostZeros16 : List Nat := List.replicate 15 48 ++ [51]

/-- Claim C1 (code bug, evaluation at the failing input).  On the inputs
`"0000000000000000"` and `"0000000000000003"` the code returns distance
1 (one differing hex character), whereas the bit-level Hamming distance
over the underlying 64-bit values — the semantic required by the claim
and by the function's own doc comment ("the number of differing bits") —
is 2, since the hex digits `0` and `3` differ in two bits. -/
theorem compareHashes_counts_chars_not_bits :
    CompareHashes zeros16 almostZeros16 = Except.ok 1 ∧
    specBitHamming zeros16 almostZeros16 = 2 ∧ (1 : Nat) ≠ 2 := by
  refine ⟨rfl, by decide, by decide⟩

/-- The function `countDiff` is symmetric. -/
theorem countDiff_comm : ∀ a b : List Nat, countDiff a b = countDiff b a
  | a :: as, b :: bs => by
      simp only [countDiff, countDiff_comm as bs, ne_comm]
  | [], [] => rfl
  | a :: as, [] => rfl
  | [], b :: bs => rfl

/-- The function `countDiff` on a list and itself gives zero. -/
theorem countDiff_self : ∀ a : List Nat, countDiff a a = 0
  | [] => rfl
  | a :: as => by simp [countDiff, countDiff_self as]

/-- The count `countDiff` is bounded by the length of the first list. -/
theorem countDiff_le_length : ∀ a b : List Nat, countDiff a b ≤ a.length
  | a :: as, b :: bs => by
      simp only [countDiff, List.length_cons]
      have h := countDiff_le_length as bs
      split <;> omega
  | [], _ => Nat.le_refl 0
  | a :: as, [] => Nat.zero_le _

/-- Claim C6 (confirmed).  `CompareHashes` fails — with the
length-mismatch error and no other — exactly when the two byte strings
have different lengths; on equal lengths it returns a distance. -/
theorem compareHashes_error_iff (a b : List Nat) :
    (CompareHashes a b = Except.error "hashes must be of the same length" ↔
      a.length ≠ b.length) ∧
    ((∃ d, CompareHashes a b = Except.ok d) ↔ a.length = b.length) := by
  unfold CompareHashes
  by_cases h : a.length = b.length <;> simp [h]

/-- Claim C8 (confirmed).  `CompareHashes` is commutative: for inputs of
equal length both orders give the same distance. -/
theorem compareHashes_comm (a b : List Nat) (h : a.length = b.length) :
    CompareHashes a b = CompareHashes b a := by
  unfold CompareHashes
  simp [h, countDiff_comm a b]

/-- Witness for C8 at a concrete input: `"ab"` against `"ba"` as byte
lists. -/
theorem compareHashes_comm_witness :
    CompareHashes [97, 98] [98, 97] = CompareHashes [98, 97] [97, 98] :=
  compareHashes_comm [97, 98] [98, 97] (by decide)

/-- Claim C9 (confirmed).  Comparing any byte string with itself succeeds
and yields distance 0. -/
theorem compareHashes_self (h : List Nat) : CompareHashes h h = Except.ok 0 := by
  unfold CompareHashes
  simp [countDiff_self h]

/-- Claim C10 (confirmed).  On any two equal-length byte strings — hex or
not — `CompareHashes` succeeds, returns the count of differing byte
positions, and that count never exceeds the common length. -/
theorem compareHashes_no_validation (a b : List Nat) (h : a.length = b.length) :
    CompareHashes a b = Except.ok (countDiff a b) ∧ countDiff a b ≤ a.length := by
  refine ⟨?_, countDiff_le_length a b⟩
  unfold CompareHashes
  simp [h]

/-- Witness for C10 at a concrete non-hex input: `"zz!"` vs `"za!"`. -/
theorem compareHashes_no_validation_witness :
    CompareHashes [122, 122, 33] [122, 97, 33] =
      Except.ok (countDiff [122, 122, 33] [122, 97, 33]) ∧
    countDiff [122, 122, 33] [122, 97, 33] ≤ 3 :=
  compareHashes_no_validation [122, 122, 33] [122, 97, 33] (by decide)

/-! ## Frequency transform (`dct`, part_002 lines 164–191) and bit
extraction (`generateHash`, part_002 lines 128–161)

`float64` arithmetic is modelled over a linear ordered field `K`;
`math.Cos θ` is modelled by `cosF q` where `θ = q·π` and `q : ℚ` is the
exact rational multiple of `π` computed by the source, and
`1/math.Sqrt2` by the parameter `invSqrt2`. -/

/-- The 2-D DCT of `part_002`: four nested loops accumulating
`matrix[x][y] * cos((2x+1)·u·π/2N) * cos((2y+1)·v·π/2N)`, then scaled by
`0.25 * cu * cv` with `cu = 1/√2` when `u = 0` (and likewise `cv`). -/
def dct {K : Type} [LinearOrderedField K] (cosF : ℚ → K) (invSqrt2 : K)
    (N : ℕ) (matrix : ℕ → ℕ → K) : ℕ → ℕ → K := fun u v =>
  let sum : K := (List.range N).foldl (fun acc x =>
    (List.range N).foldl (fun acc2 y =>
      acc2 + matrix x y * cosF ((2 * x + 1) * u / (2 * N)) *
        cosF ((2 * y + 1) * v / (2 * N))) acc) 0
  let cu : K := if u = 0 then invSqrt2 else 1
  let cv : K := if v = 0 then invSqrt2 else 1
  (1 / 4 : K) * cu * cv * sum

/-- The `dctValues` slice of `generateHash`: the top-left 8×8 block of
the coefficient matrix, appended row by row (row-major order). -/
def dctValues {K : Type} (m : ℕ → ℕ → K) : List K :=
  (List.range 8).foldl (fun acc y =>
    (List.range 8).foldl (fun acc2 x => acc2 ++ [m y x]) acc) []

/-- The thresholding tail of `generateHash`: average of the values from
index 1 on, divided by 63, then a fold setting bit `i` when `i > 0` and
the `i`-th value strictly exceeds the average. -/
def hashBits {K : Type} [LinearOrderedField K] (vals : List K) : Nat :=
  let average : K := (vals.drop 1).sum / 63
  (List.range vals.length).foldl
    (fun hash i =>
      if i > 0 ∧ vals.getD i 0 > average then hash ||| (1 <<< i) else hash) 0

/-- Model of `generateHash` of `part_002`: sample the 32×32 grayscale image into
`pixels[y][x] = img(x, y)`, apply the DCT, then extract the 64 bits. -/
def generateHash {K : Type} [LinearOrderedField K] (cosF : ℚ → K)
    (invSqrt2 : K) (img : ℕ → ℕ → ℕ) : Nat :=
  let pixels : ℕ → ℕ → K := fun y x => (img x y : K)
  let dctMatrix := dct cosF invSqrt2 32 pixels
  hashBits (dctValues dctMatrix)

/-- A loop accumulating `h x` at each step equals the starting value
plus the sum of `h` over the range. -/
theorem foldl_add_eq {K : Type} [AddCommMonoid K] (f : K → ℕ → K) (h : ℕ → K)
    (hf : ∀ a x, f a x = a + h x) :
    ∀ (n : ℕ) (a : K), (List.range n).foldl f a = a + ∑ x ∈ Finset.range n, h x := by
  intro n
  induction n with
  | zero => intro a; simp
  | succ n ih =>
      intro a
      rw [List.range_succ, List.foldl_append, List.foldl_cons, List.foldl_nil,
        ih a, hf, Finset.sum_range_succ, add_assoc]

/-- Sum of a function mapped over `List.range` as a `Finset` sum. -/
theorem list_sum_map_range {K : Type} [AddCommMonoid K] (f : ℕ → K) (n : ℕ) :
    ((List.range n).map f).sum = ∑ x ∈ Finset.range n, f x := by
  induction n with
  | zero => simp
  | succ n ih =>
      rw [List.range_succ, List.map_append, List.sum_append,
        Finset.sum_range_succ, ih]
      simp

/-- Bits of the hash-building fold: bit `j` of the result is set exactly
when it was set in the accumulator or `j` lies in the range and
satisfies the predicate. -/
theorem testBit_bitFold (p : ℕ → Prop) [DecidablePred p] :
    ∀ (n a j : ℕ),
      (((List.range n).foldl
          (fun h i => if p i then h ||| (1 <<< i) else h) a).testBit j = true) ↔
        (a.testBit j = true ∨ (j < n ∧ p j)) := by
  intro n
  induction n with
  | zero => intro a j; simp
  | succ n ih =>
      intro a j
      rw [List.range_succ, List.foldl_append, List.foldl_cons, List.foldl_nil]
      by_cases hp : p n
      · rw [if_pos hp, Nat.one_shiftLeft, Nat.testBit_lor, Nat.testBit_two_pow,
          Bool.or_eq_true_iff, ih]
        constructor
        · rintro ((h | h) | h)
          · exact Or.inl h
          · exact Or.inr ⟨by omega, h.2⟩
          · have hnj : n = j := of_decide_eq_true h
            exact Or.inr ⟨by omega, hnj ▸ hp⟩
        · rintro (h | ⟨hj, hpj⟩)
          · exact Or.inl (Or.inl h)
          · rcases Nat.lt_or_ge j n with hlt | hge
            · exact Or.inl (Or.inr ⟨hlt, hpj⟩)
            · exact Or.inr (decide_eq_true (by omega : n = j))
      · rw [if_neg hp, ih]
        constructor
        · rintro (h | ⟨hj, hpj⟩)
          · exact Or.inl h
          · exact Or.inr ⟨by omega, hpj⟩
        · rintro (h | ⟨hj, hpj⟩)
          · exact Or.inl h
          · have hjn : j < n := by
              rcases Nat.lt_or_ge j n with hlt | hge
              · exact hlt
              · exfalso; exact hp ((by omega : j = n) ▸ hpj)
            exact Or.inr ⟨hjn, hpj⟩

/-- The hash-building fold never leaves the 64-bit range when started
below it over at most 64 indices. -/
theorem bitFold_lt_two_pow (p : ℕ → Prop) [DecidablePred p] :
    ∀ (n : ℕ), n ≤ 64 → ∀ a : ℕ, a < 2 ^ 64 →
      ((List.range n).foldl
        (fun h i => if p i then h ||| (1 <<< i) else h) a) < 2 ^ 64 := by
  intro n
  induction n with
  | zero => intro _ a ha; simpa using ha
  | succ n ih =>
      intro hn a ha
      rw [List.range_succ, List.foldl_append, List.foldl_cons, List.foldl_nil]
      by_cases hp : p n
      · rw [if_pos hp]
        refine Nat.or_lt_two_pow (ih (by omega) a ha) ?_
        rw [Nat.one_shiftLeft]
        exact Nat.pow_lt_pow_right (by norm_num) (by omega)
      · rw [if_neg hp]
        exact ih (by omega) a ha

/-- A loop appending one element per index builds the mapped list. -/
theorem foldl_append_singleton {α : Type} (g : ℕ → α) :
    ∀ (l : List ℕ) (acc : List α),
      l.foldl (fun a x => a ++ [g x]) acc = acc ++ l.map g := by
  intro l
  induction l with
  | nil => intro acc; simp
  | cons x xs ih => intro acc; simp [ih]

/-- A loop appending one block per index builds the flattened mapped
list. -/
theorem foldl_append_blocks {α : Type} (G : ℕ → List α) :
    ∀ (l : List ℕ) (acc : List α),
      l.foldl (fun a y => a ++ G y) acc = acc ++ (l.map G).flatten := by
  intro l
  induction l with
  | nil => intro acc; simp
  | cons x xs ih => intro acc; simp [ih]

theorem range_eight : List.range 8 = [0, 1, 2, 3, 4, 5, 6, 7] := rfl

/-- The list `dctValues` is exactly the row-major scan of the top-left 8×8 block
of the coefficient matrix. -/
theorem dctValues_explicit {K : Type} (m : ℕ → ℕ → K) :
    dctValues m =
    [m 0 0, m 0 1, m 0 2, m 0 3, m 0 4, m 0 5, m 0 6, m 0 7,
      m 1 0, m 1 1, m 1 2, m 1 3, m 1 4, m 1 5, m 1 6, m 1 7,
      m 2 0, m 2 1, m 2 2, m 2 3, m 2 4, m 2 5, m 2 6, m 2 7,
      m 3 0, m 3 1, m 3 2, m 3 3, m 3 4, m 3 5, m 3 6, m 3 7,
      m 4 0, m 4 1, m 4 2, m 4 3, m 4 4, m 4 5, m 4 6, m 4 7,
      m 5 0, m 5 1, m 5 2, m 5 3, m 5 4, m 5 5, m 5 6, m 5 7,
      m 6 0, m 6 1, m 6 2, m 6 3, m 6 4, m 6 5, m 6 6, m 6 7,
      m 7 0, m 7 1, m 7 2, m 7 3, m 7 4, m 7 5, m 7 6, m 7 7] := by
  unfold dctValues
  simp only [foldl_append_singleton]
  simp only [foldl_append_blocks]
  rw [range_eight]
  simp

/-- The 8×8 block always has 64 entries. -/
theorem dctValues_length {K : Type} (m : ℕ → ℕ → K) :
    (dctValues m).length = 64 := by
  rw [dctValues_explicit]; rfl

/-- The sum skipping index 0 of the row-major scan is the sum of the
8×8 block without the DC coefficient at position (0, 0). -/
theorem drop_one_sum (m : ℕ → ℕ → ℝ) :
    ((dctValues m).drop 1).sum =
      ∑ p ∈ (Finset.range 8 ×ˢ Finset.range 8).erase (0, 0), m p.1 p.2 := by
  have h1 : ((0:ℕ),(0:ℕ)) ∈ Finset.range 8 ×ˢ Finset.range 8 := by decide
  have h2 : ∑ p ∈ (Finset.range 8 ×ˢ Finset.range 8).erase (0,0), m p.1 p.2
      = (∑ p ∈ Finset.range 8 ×ˢ Finset.range 8, m p.1 p.2) - m 0 0 := by
    rw [← Finset.add_sum_erase _ _ h1]; ring
  rw [dctValues_explicit, h2, Finset.sum_product']
  simp only [← list_sum_map_range]
  rw [range_eight]
  simp only [List.map_cons, List.map_nil, List.sum_cons, List.sum_nil]
  simp only [List.drop, List.sum_cons, List.sum_nil]
  ring

/-- Claim C2 (confirmed).  For every coefficient matrix `m`, the bit
extraction of `generateHash` leaves bit 0 clear and, for each
`i ∈ 1..63`, sets bit `i` exactly when the `i`-th coefficient of the
row-major scan of the top-left 8×8 block (namely `m (i/8) (i%8)`)
strictly exceeds the arithmetic mean of the 63 coefficients of that
block other than the DC term at position (0, 0). -/
theorem generateHash_bit_spec (m : ℕ → ℕ → ℝ) (i : ℕ) (hi1 : 1 ≤ i) (hi2 : i ≤ 63) :
    (hashBits (dctValues m)).testBit 0 = false ∧
    ((hashBits (dctValues m)).testBit i = true ↔
      m (i / 8) (i % 8) >
        (∑ p ∈ (Finset.range 8 ×ˢ Finset.range 8).erase (0, 0), m p.1 p.2) / 63) := by
  have hlen : (dctValues m).length = 64 := dctValues_length m
  have hget : (dctValues m).getD i 0 = m (i / 8) (i % 8) := by
    rw [dctValues_explicit]
    interval_cases i <;> rfl
  have havg : ((dctValues m).drop 1).sum / 63 =
      (∑ p ∈ (Finset.range 8 ×ˢ Finset.range 8).erase (0, 0), m p.1 p.2) / 63 := by
    rw [drop_one_sum]
  constructor
  · refine Bool.eq_false_iff.mpr fun h => ?_
    have hb0 := (testBit_bitFold
      (fun k => k > 0 ∧ (dctValues m).getD k 0 > ((dctValues m).drop 1).sum / 63)
      ((dctValues m).length) 0 0).mp h
    rcases hb0 with h0 | ⟨_, h0, _⟩
    · simp at h0
    · exact absurd h0 (lt_irrefl 0)
  · refine Iff.trans (testBit_bitFold
      (fun k => k > 0 ∧ (dctValues m).getD k 0 > ((dctValues m).drop 1).sum / 63)
      ((dctValues m).length) 0 i) ?_
    rw [hlen, Nat.zero_testBit]
    constructor
    · rintro (h | ⟨hlt, h0, hgt⟩)
      · exact Bool.noConfusion h
      · rw [hget, havg] at hgt
        exact hgt
    · intro hgt
      exact Or.inr ⟨by omega, by omega, by rw [hget, havg]; exact hgt⟩

/-- Witness for C2 on the all-zero coefficient matrix at bit 5. -/
theorem generateHash_bit_spec_witness :
    (hashBits (dctValues (fun _ _ => (0:ℝ)))).testBit 0 = false ∧
    ((hashBits (dctValues (fun _ _ => (0:ℝ)))).testBit 5 = true ↔
      (0:ℝ) >
        (∑ p ∈ (Finset.range 8 ×ˢ Finset.range 8).erase (0, 0), (0:ℝ)) / 63) :=
  generateHash_bit_spec (fun _ _ => (0:ℝ)) 5 (by decide) (by decide)

/-- Claim C3 (confirmed).  With `math.Cos` read as the real cosine and
`math.Sqrt2` as `√2`, each entry `(u, v)` of the transform of an `N×N`
real grid is `0.25·cu·cv·Σₓ Σᵧ matrix[x][y]·cos((2x+1)uπ/2N)·cos((2y+1)vπ/2N)`
with `cu = 1/√2` exactly when `u = 0` and `cv = 1/√2` exactly when
`v = 0`. -/
theorem dct_spec (N : ℕ) (matrix : ℕ → ℕ → ℝ) (u v : ℕ) (hu : u < N) (hv : v < N) :
    dct (fun q => Real.cos (q * Real.pi)) (1 / Real.sqrt 2) N matrix u v =
      (1 / 4) * (if u = 0 then 1 / Real.sqrt 2 else 1) *
        (if v = 0 then 1 / Real.sqrt 2 else 1) *
        ∑ x ∈ Finset.range N, ∑ y ∈ Finset.range N,
          matrix x y * Real.cos ((2 * x + 1) * u * Real.pi / (2 * N)) *
            Real.cos ((2 * y + 1) * v * Real.pi / (2 * N)) := by
  unfold dct
  dsimp only
  congr 1
  refine Eq.trans (foldl_add_eq _ _
    (fun a x => foldl_add_eq _ _ (fun a2 y => rfl) N a) N 0) ?_
  rw [zero_add]
  refine Finset.sum_congr rfl fun x _ => Finset.sum_congr rfl fun y _ => ?_
  have harg : ∀ a b : ℕ, ((((2 * (a:ℚ) + 1) * (b:ℚ) / (2 * (N:ℚ))) : ℚ) : ℝ) * Real.pi
      = (2 * (a:ℝ) + 1) * (b:ℝ) * Real.pi / (2 * (N:ℝ)) := by
    intro a b; push_cast; ring
  rw [harg x u, harg y v]

/-- Witness for C3 on the all-zero 1×1 grid at entry (0, 0). -/
theorem dct_spec_witness :
    dct (fun q => Real.cos (q * Real.pi)) (1 / Real.sqrt 2) 1 (fun _ _ => (0:ℝ)) 0 0 =
      (1 / 4) * (if (0:ℕ) = 0 then 1 / Real.sqrt 2 else 1) *
        (if (0:ℕ) = 0 then 1 / Real.sqrt 2 else 1) *
        ∑ x ∈ Finset.range 1, ∑ y ∈ Finset.range 1,
          (0:ℝ) * Real.cos ((2 * (x:ℝ) + 1) * ((0:ℕ):ℝ) * Real.pi / (2 * ((1:ℕ):ℝ))) *
            Real.cos ((2 * (y:ℝ) + 1) * ((0:ℕ):ℝ) * Real.pi / (2 * ((1:ℕ):ℝ))) :=
  dct_spec 1 (fun _ _ => 0) 0 0 (by decide) (by decide)

/-! ## Pipeline entry point (`FromPath`, part_002 lines 34–74)

The file-system interactions (`os.Open`, `image.Decode`'s reading of
the bytes, `saveImage`'s writes) are abstracted into an environment
record; the decoded image is abstracted by the 32×32 luminance grid
(gray values 0–255) that `preprocessImage`'s Catmull-Rom resampling —
a call into `golang.org/x/image/draw` — produces for it. -/

/-- Record `Config` of the package; the two fields of the nested
`DebugParameter` struct are flattened into the record. -/
structure Config where
  Debug : Bool
  PreprocessedImagePath : String
  VisualizedImagePath : String

/-- The package-level `defaultConfig`: debug off, both path fields at Go's zero value. -/
def defaultConfig : Config :=
  { Debug := false, PreprocessedImagePath := "", VisualizedImagePath := "" }

/-- Error taxonomy of `FromPath`: `os.Open` failure, `image.Decode`
failure, the named `ErrUnsupportedFormat`, or a failure inside
`saveImage` during a debug write. -/
inductive Err where
  | openErr (msg : String)
  | decodeErr (msg : String)
  | unsupportedFormat
  | saveErr (msg : String)
deriving DecidableEq

/-- The content of an opened file as `image.Decode` sees it: either
bytes rejected by every decoder (with that error's message), or a valid
image in some encoding, abstracted by the luminance grid its
preprocessing yields. -/
inductive ImageBytes where
  | invalid (msg : String)
  | encoded (format : String) (resampled : ℕ → ℕ → ℕ)

/-- The environment of one `FromPath` call: the outcome of `os.Open`
on the source path, and for each destination path whether a `saveImage`
write there fails (and with which message). -/
structure Env where
  openResult : Except String ImageBytes
  saveResult : String → Option String

/-- The image formats registered in this program: the package imports
exactly `image/png` and `image/jpeg`, and no other file of the
repository imports further decoders, so `image.Decode` recognizes only
these two encodings. -/
def registeredFormats : List String := ["png", "jpeg"]

/-- Model of `image.Decode`: fails on invalid bytes; fails with Go's
`image: unknown format` error when no registered decoder matches the
encoding; otherwise returns the image together with the format name
under which the decoder registered itself. -/
def decode (registry : List String) (bytes : ImageBytes) :
    Except String (String × (ℕ → ℕ → ℕ)) :=
  match bytes with
  | .invalid msg => .error msg
  | .encoded format img =>
      if format ∈ registry then .ok (format, img)
      else .error "image: unknown format"

/-- Model of `saveImage` at `location`: the environment decides whether the
write fails.  The list records the locations written. -/
def saveImage (env : Env) (location : String) :
    Except String Unit × List String :=
  match env.saveResult location with
  | some msg => (.error msg, [])
  | none => (.ok (), [location])

/-- Lowercase hex digits of `n`, most significant first (Go's `%x`). -/
def hexChars (n : Nat) : List Char :=
  if h : n < 16 then [Nat.digitChar n]
  else hexChars (n / 16) ++ [Nat.digitChar (n % 16)]
decreasing_by exact Nat.div_lt_self (by omega) (by omega)

/-- Go's `fmt.Sprintf("%016x", hash)`: lowercase hex digits,
left-padded with `'0'` to width 16. -/
def formatHash (n : Nat) : String :=
  ⟨List.replicate (16 - (hexChars n).length) '0' ++ hexChars n⟩

/-- The sixteen lowercase hexadecimal digit characters. -/
def lowercaseHexDigits : List Char := "0123456789abcdef".data

/-- Model of `FromPath` of `part_002`: load the configuration (first variadic
argument or the default), open, decode, check the format allow-list,
optionally save the preprocessed image, hash, optionally save the
visualization, and format the hash.  The second component collects the
paths written, for the frame-condition statements. -/
def FromPath {K : Type} [LinearOrderedField K] (cosF : ℚ → K) (invSqrt2 : K)
    (env : Env) (configs : List Config) : Except Err String × List String :=
  let config := configs.headD defaultConfig
  match env.openResult with
  | .error msg => (.error (.openErr msg), [])
  | .ok bytes =>
    match decode registeredFormats bytes with
    | .error msg => (.error (.decodeErr msg), [])
    | .ok (format, img) =>
      if format ≠ "png" ∧ format ≠ "jpeg" ∧ format ≠ "jpg" then
        (.error .unsupportedFormat, [])
      else
        let step1 : Except Err Unit × List String :=
          if config.Debug then
            match saveImage env config.PreprocessedImagePath with
            | (.error msg, w) => (.error (.saveErr msg), w)
            | (.ok _, w) => (.ok (), w)
          else (.ok (), [])
        match step1 with
        | (.error e, w) => (.error e, w)
        | (.ok _, w1) =>
          let hash := generateHash cosF invSqrt2 img
          let step2 : Except Err Unit × List String :=
            if config.Debug then
              match saveImage env config.VisualizedImagePath with
              | (.error msg, w) => (.error (.saveErr msg), w)
              | (.ok _, w) => (.ok (), w)
            else (.ok (), [])
          match step2 with
          | (.error e, w2) => (.error e, w1 ++ w2)
          | (.ok _, w2) => (.ok (formatHash hash), w1 ++ w2)

/-- A value below `16^(k+1)` has at most `k+1` hex digits. -/
theorem hexChars_length_le : ∀ (k n : ℕ), n < 16 ^ (k + 1) → (hexChars n).length ≤ k + 1 := by
  intro k
  induction k with
  | zero =>
      intro n hn
      rw [pow_one] at hn
      unfold hexChars
      rw [dif_pos hn]
      simp
  | succ k ih =>
      intro n hn
      unfold hexChars
      split
      · simp
      · next hge =>
          have hdiv : n / 16 < 16 ^ (k + 1) := by
            rw [Nat.div_lt_iff_lt_mul (by omega : 0 < 16)]
            rw [pow_succ] at hn
            exact hn
          have := ih (n / 16) hdiv
          simp only [List.length_append, List.length_singleton]
          omega

/-- Applying `Nat.digitChar` to a value below 16 gives a lowercase hex digit. -/
theorem digitChar_mem_hex : ∀ m : ℕ, m < 16 → Nat.digitChar m ∈ lowercaseHexDigits := by
  decide

/-- Every character `hexChars` emits is a lowercase hex digit. -/
theorem hexChars_subset : ∀ n : ℕ, ∀ c ∈ hexChars n, c ∈ lowercaseHexDigits := by
  intro n
  induction n using Nat.strong_induction_on with
  | _ n ih =>
      intro c hc
      unfold hexChars at hc
      split at hc
      · next h =>
          have hcd : c = Nat.digitChar n := by simpa using hc
          exact hcd ▸ digitChar_mem_hex n h
      · next h =>
          rcases List.mem_append.mp hc with h1 | h2
          · exact ih (n / 16) (Nat.div_lt_self (by omega) (by omega)) c h1
          · have hcd : c = Nat.digitChar (n % 16) := by simpa using h2
            exact hcd ▸ digitChar_mem_hex _ (Nat.mod_lt _ (by omega))

/-- Formatting a 64-bit value with the padded verb gives exactly 16 characters. -/
theorem formatHash_length (n : ℕ) (h : n < 2 ^ 64) : (formatHash n).length = 16 := by
  have h16 : (16:ℕ) ^ 16 = 2 ^ 64 := by norm_num
  have hL : (hexChars n).length ≤ 16 := hexChars_length_le 15 n (by omega)
  unfold formatHash
  simp only [String.length, List.length_append, List.length_replicate]
  omega

/-- Every character `%016x` emits is a lowercase hex digit. -/
theorem formatHash_chars (n : ℕ) : ∀ c ∈ (formatHash n).data, c ∈ lowercaseHexDigits := by
  intro c hc
  unfold formatHash at hc
  rcases List.mem_append.mp hc with h1 | h2
  · have : c = '0' := List.eq_of_mem_replicate h1
    rw [this]; decide
  · exact hexChars_subset n c h2

/-- The extracted hash of at most 64 values fits in 64 bits. -/
theorem hashBits_lt {K : Type} [LinearOrderedField K] (vals : List K)
    (h : vals.length ≤ 64) : hashBits vals < 2 ^ 64 := by
  unfold hashBits
  exact bitFold_lt_two_pow _ vals.length h 0 (by norm_num)

/-- The value of `generateHash` always fits in a `uint64`. -/
theorem generateHash_lt {K : Type} [LinearOrderedField K] (cosF : ℚ → K)
    (invSqrt2 : K) (img : ℕ → ℕ → ℕ) :
    generateHash cosF invSqrt2 img < 2 ^ 64 := by
  unfold generateHash
  exact hashBits_lt _ (le_of_eq (dctValues_length _))

/-- Claim C4 (confirmed).  Whenever `FromPath` succeeds, the returned
hash string has exactly 16 characters, all lowercase hexadecimal
digits (the zero-padded `%016x` rendering of the 64-bit hash). -/
theorem fromPath_hash_format {K : Type} [LinearOrderedField K] (cosF : ℚ → K)
    (invSqrt2 : K) (env : Env) (configs : List Config) (s : String)
    (h : (FromPath cosF invSqrt2 env configs).1 = Except.ok s) :
    s.length = 16 ∧ ∀ c ∈ s.data, c ∈ lowercaseHexDigits := by
  unfold FromPath at h
  dsimp only at h
  split at h
  · exact absurd h (by simp)
  split at h
  · exact absurd h (by simp)
  split at h
  · exact absurd h (by simp)
  split at h
  · exact absurd h (by simp)
  split at h
  · exact absurd h (by simp)
  · rename_i img heq
    simp only [Except.ok.injEq] at h
    subst h
    exact ⟨formatHash_length _ (generateHash_lt _ _ _), formatHash_chars _⟩

/-- A concrete environment: a valid PNG whose preprocessing yields the
all-black 32×32 grid, with no write failures. -/
def envZero : Env :=
  { openResult := Except.ok (ImageBytes.encoded "png" (fun _ _ => 0)),
    saveResult := fun _ => none }

/-- With an identically-zero cosine the transform vanishes. -/
theorem dct_zero_cos {K : Type} [LinearOrderedField K] (invSqrt2 : K)
    (N : ℕ) (matrix : ℕ → ℕ → K) (u v : ℕ) :
    dct (fun _ => (0:K)) invSqrt2 N matrix u v = 0 := by
  unfold dct
  dsimp only
  have h : (List.range N).foldl (fun acc x =>
      (List.range N).foldl (fun acc2 y =>
        acc2 + matrix x y * 0 * 0) acc) 0 = (0:K) := by
    rw [foldl_add_eq _ (fun _ => (0:K))
      (fun a x => ((foldl_add_eq _ (fun _ => (0:K))
        (fun a2 y => by ring) N a).trans (by rw [Finset.sum_const_zero]))) N 0]
    rw [Finset.sum_const_zero, add_zero]
  rw [h, mul_zero]

/-- If every listed value is zero, no threshold comparison is strict,
so the extracted hash is zero. -/
theorem hashBits_of_all_zero {K : Type} [LinearOrderedField K] (vals : List K)
    (hv : ∀ x ∈ vals, x = 0) : hashBits vals = 0 := by
  unfold hashBits
  refine Nat.eq_of_testBit_eq fun j => ?_
  rw [Nat.zero_testBit]
  refine Bool.eq_false_iff.mpr fun hbit => ?_
  have hchar := (testBit_bitFold
    (fun i => i > 0 ∧ vals.getD i 0 > (vals.drop 1).sum / 63)
    vals.length 0 j).mp hbit
  rcases hchar with h0 | ⟨hj, _, hgt⟩
  · simp at h0
  · have hgd : vals.getD j 0 = 0 := by
      rw [List.getD_eq_getElem?_getD]
      cases hj' : vals[j]? with
      | none => rfl
      | some x => exact hv x (List.getElem?_mem hj')
    have hsum : (vals.drop 1).sum = 0 :=
      List.sum_eq_zero fun x hx => hv x (List.mem_of_mem_drop hx)
    rw [hgd, hsum] at hgt
    norm_num at hgt

/-- The hash of the all-black image under the zero cosine is zero:
every coefficient equals the (zero) mean, so no strict comparison
fires. -/
theorem generateHash_zero :
    generateHash (fun _ => (0:ℚ)) 0 (fun _ _ => 0) = 0 := by
  unfold generateHash
  dsimp only
  rw [dctValues_explicit]
  simp only [dct_zero_cos]
  exact hashBits_of_all_zero _ (by intro x hx; simpa using hx)

/-- Formatting the zero hash gives the all-zero string. -/
theorem formatHash_zero : formatHash 0 = "0000000000000000" := by
  have h0 : hexChars 0 = ['0'] := by
    unfold hexChars
    norm_num
    decide
  unfold formatHash
  rw [h0]
  decide

/-- Running `FromPath` on `envZero` with no configuration argument succeeds
with the all-zero hash string. -/
theorem fromPath_zero :
    (FromPath (fun _ => (0:ℚ)) 0 envZero []).1 = Except.ok "0000000000000000" := by
  unfold FromPath
  dsimp only
  simp only [envZero, List.headD, defaultConfig, decode, registeredFormats]
  norm_num
  rw [generateHash_zero, formatHash_zero]

/-- Witness for C4: the success case of `fromPath_zero` produces a
16-character lowercase-hex string. -/
theorem fromPath_hash_format_witness :
    ("0000000000000000" : String).length = 16 ∧
      ∀ c ∈ ("0000000000000000" : String).data, c ∈ lowercaseHexDigits :=
  fromPath_hash_format (fun _ => (0:ℚ)) 0 envZero [] "0000000000000000" fromPath_zero

/-- Claim C5 (counterexample).  A GIF file: no GIF decoder is registered
(the program imports only `image/png` and `image/jpeg`), so
`image.Decode` itself fails and `FromPath` returns that decode error —
not the named `ErrUnsupportedFormat` the claim requires. -/
theorem fromPath_gif_not_unsupported :
    (FromPath (fun _ => (0:ℚ)) 0
        { openResult := Except.ok (ImageBytes.encoded "gif" (fun _ _ => 0)),
          saveResult := fun _ => none } []).1
      = Except.error (Err.decodeErr "image: unknown format") ∧
    Except.error (α := String) (Err.decodeErr "image: unknown format") ≠
      Except.error (α := String) Err.unsupportedFormat := by
  refine ⟨rfl, fun hcon => absurd (Except.error.inj hcon) (by decide)⟩

/-- Claim C5 (amended, confirmed).  Any encoding with no registered
decoder — BMP and GIF in particular — fails at the decode stage with
Go's unknown-format error (no crash); the distinct
`ErrUnsupportedFormat` is reserved for inputs that decode successfully
under a format outside {png, jpeg, jpg}. -/
theorem fromPath_unregistered_decode_error {K : Type} [LinearOrderedField K]
    (cosF : ℚ → K) (invSqrt2 : K) (env : Env) (configs : List Config)
    (format : String) (img : ℕ → ℕ → ℕ)
    (hopen : env.openResult = Except.ok (ImageBytes.encoded format img))
    (hreg : format ∉ registeredFormats) :
    (FromPath cosF invSqrt2 env configs).1 =
      Except.error (Err.decodeErr "image: unknown format") := by
  unfold FromPath
  dsimp only
  rw [hopen]
  simp [decode, hreg]

/-- Witness for the amended C5 at a concrete BMP environment. -/
theorem fromPath_unregistered_decode_error_witness :
    (FromPath (fun _ => (0:ℚ)) 0
        { openResult := Except.ok (ImageBytes.encoded "bmp" (fun _ _ => 0)),
          saveResult := fun _ => none } []).1
      = Except.error (Err.decodeErr "image: unknown format") :=
  fromPath_unregistered_decode_error (fun _ => (0:ℚ)) 0 _ [] "bmp" (fun _ _ => 0)
    rfl (by decide)

/-- Claim C7 (confirmed).  The default configuration has the debug flag
unset, and whenever the effective configuration (explicit or default)
has the flag unset, `FromPath` writes no file at all. -/
theorem fromPath_no_debug_no_writes {K : Type} [LinearOrderedField K]
    (cosF : ℚ → K) (invSqrt2 : K) (env : Env) (configs : List Config)
    (h : (configs.headD defaultConfig).Debug = false) :
    defaultConfig.Debug = false ∧ (FromPath cosF invSqrt2 env configs).2 = [] := by
  refine ⟨rfl, ?_⟩
  unfold FromPath
  dsimp only
  rw [h]
  split
  · rfl
  split
  · rfl
  split
  · rfl
  · simp

/-- Witness for C7: an invocation with no configuration argument
writes nothing. -/
theorem fromPath_no_debug_no_writes_witness :
    defaultConfig.Debug = false ∧
      (FromPath (fun _ => (0:ℚ)) 0 envZero []).2 = [] :=
  fromPath_no_debug_no_writes (fun _ => (0:ℚ)) 0 envZero [] rfl

end PerceptualHash
